import Mathlib

/-!
# Verification of the custom graph canvas plugin

Shallow embedding of the canvas view found in `src/main.ts` (class
`CustomCanvasView`): the geometry/transform functions over `ℚ`, the
in-memory graph model built by `loadNodes`, and the frontmatter
text-patching layer (`saveNodePosition`, `saveEdgesToFrontmatter`)
modelled at character level, including the exact greedy/lazy semantics
of the regular expressions the source uses.

Strings are modelled as `List Char`.  JavaScript numbers are modelled
as `ℚ` (exact arithmetic; the properties checked here hold or fail by
amounts far beyond floating-point noise).
-/

/-- Character data of a string literal. -/
def s (x : String) : List Char := x.data

/-- JavaScript `\s` on the character classes that occur in documents:
space, tab, newline, carriage return, vertical tab, form feed. -/
def isWs (c : Char) : Bool :=
  c = ' ' || c = '\t' || c = '\n' || c = '\x0d' || c = '\x0b' || c = '\x0c'

/-- A line terminator (what `.` does not match and `$`/`^` with the `m`
flag break on): newline or carriage return. -/
def isTerm (c : Char) : Bool := c = '\n' || c = '\x0d'

/-! ## Geometry / transform (`worldToScreen`, `screenToWorld`, wheel zoom) -/

/-- `worldToScreen` from the source: `(world + pan) * zoom`, per axis. -/
def worldToScreen (p pan : ℚ × ℚ) (zoom : ℚ) : ℚ × ℚ :=
  ((p.1 + pan.1) * zoom, (p.2 + pan.2) * zoom)

/-- `screenToWorld` from the source: `screen / zoom - pan`, per axis. -/
def screenToWorld (p pan : ℚ × ℚ) (zoom : ℚ) : ℚ × ℚ :=
  (p.1 / zoom - pan.1, p.2 / zoom - pan.2)

/-- `Math.max(0.1, Math.min(5, z))`, the zoom clamp used by `onWheel`
and `updateZoomFromInput`. -/
def clampZoom (z : ℚ) : ℚ := max (1/10) (min 5 z)

/-- One `onWheel` step: factor `0.9` when `deltaY > 0` else `1.1`;
multiply and clamp the zoom; then adjust pan by
`worldPos - newWorldPos` (world under the pointer before and after the
zoom change).  Returns the new pan and zoom. -/
def onWheelStep (pan : ℚ × ℚ) (zoom : ℚ) (pos : ℚ × ℚ) (deltaYPos : Bool) :
    (ℚ × ℚ) × ℚ :=
  let worldPos := screenToWorld pos pan zoom
  let zoomFactor : ℚ := if deltaYPos then 9/10 else 11/10
  let zoom1 := clampZoom (zoom * zoomFactor)
  let newWorldPos := screenToWorld pos pan zoom1
  ((pan.1 + (worldPos.1 - newWorldPos.1), pan.2 + (worldPos.2 - newWorldPos.2)), zoom1)

/-- `updateZoomFromInput`: `parseFloat` of the field (`none` models
`NaN`, which returns without touching the state); otherwise clamp,
take the world point at the viewport centre before the change, set the
zoom, and re-derive pan so that the same world point sits at the
centre (`setCenterWorldCoordinate`). -/
def updateZoomFromInputStep (pan : ℚ × ℚ) (zoom : ℚ) (vw vh : ℚ)
    (inputVal : Option ℚ) : (ℚ × ℚ) × ℚ :=
  match inputVal with
  | none => (pan, zoom)
  | some v =>
      let clampedZoom := clampZoom v
      let centerBefore := screenToWorld (vw / 2, vh / 2) pan zoom
      ((vw / 2 / clampedZoom - centerBefore.1, vh / 2 / clampedZoom - centerBefore.2),
        clampedZoom)

/-! ## Graph model (`loadNodes`, edge keys, hit handling on mouse-up) -/

/-- A frontmatter scalar as the code inspects it with
`typeof v === 'number'`: a number or some non-numeric value. -/
inductive FVal where
  | num (q : ℚ)
  | other
deriving DecidableEq, Repr

/-- An entry of the frontmatter `edges` array as the code inspects it
with `typeof targetPath === 'string'`. -/
inductive EItem where
  | str (t : List Char)
  | nonstr
deriving DecidableEq, Repr

/-- The slice of a file's cached frontmatter that `loadNodes` reads.
`node_size` is modelled as an optional number (the only shapes the
claims concern); `edges` is `none` when absent or not an array. -/
structure FMCache where
  node_x : Option FVal
  node_y : Option FVal
  node_size : Option ℚ
  edges : Option (List EItem)
deriving DecidableEq, Repr

/-- A markdown file as `loadNodes` sees it: path, basename (used as
the node label) and optional frontmatter cache. -/
structure MDFile where
  path : List Char
  basename : List Char
  fm : Option FMCache
deriving DecidableEq, Repr

/-- `CanvasNode` from the source. -/
structure CanvasNode where
  id : List Char
  path : List Char
  x : ℚ
  y : ℚ
  size : ℚ
  label : List Char
deriving DecidableEq, Repr

/-- `CanvasEdge` from the source. -/
structure CEdge where
  source : List Char
  target : List Char
deriving DecidableEq, Repr

/-- JavaScript string `<` (lexicographic by code unit). -/
def lexLt : List Char → List Char → Bool
  | _, [] => false
  | [], _ :: _ => true
  | a :: as, b :: bs => if a = b then lexLt as bs else decide (a.val < b.val)

/-- `getEdgeKey`: the smaller path first, joined by `|`. -/
def getEdgeKey (source target : List Char) : List Char :=
  if lexLt source target then source ++ '|' :: target else target ++ '|' :: source

/-- Association-list lookup (model of `Map.get`). -/
def lookupA {α : Type} (m : List (List Char × α)) (k : List Char) : Option α :=
  match m with
  | [] => none
  | (k', v) :: rest => if k' = k then some v else lookupA rest k

/-- Model of `Map.set`: update in place when the key exists, else append. -/
def setAssoc {α : Type} (m : List (List Char × α)) (k : List Char) (v : α) :
    List (List Char × α) :=
  match m with
  | [] => [(k, v)]
  | (k', v') :: rest => if k' = k then (k, v) :: rest else (k', v') :: setAssoc rest k v

/-- The two maps `loadNodes` rebuilds. -/
structure GraphSt where
  nodes : List (List Char × CanvasNode)
  edges : List (List Char × CEdge)
deriving DecidableEq, Repr

/-- `cache.frontmatter.node_size || 20`: absent or `0` is falsy and
falls back to the default `20`. -/
def nodeSizeVal (ns : Option ℚ) : ℚ :=
  match ns with
  | none => 20
  | some v => if v = 0 then 20 else v

/-- Normalize an edge target: append `.md` when the suffix is missing. -/
def normalizeTarget (t : List Char) : List Char :=
  if (s ".md").isSuffixOf t then t else t ++ s ".md"

/-- One iteration of the `for (const targetPath of edges)` loop inside
`loadNodes`: skip non-strings and raw targets equal to the source
path; normalize; require the target file to exist in the vault; then
register the edge under its canonical key unless present. -/
def processEntry (vault : List (List Char)) (srcPath : List Char)
    (st : GraphSt) (it : EItem) : GraphSt :=
  match it with
  | .nonstr => st
  | .str t =>
      if t = srcPath then st
      else
        let normalizedTarget := normalizeTarget t
        if vault.contains normalizedTarget then
          let edgeKey := getEdgeKey srcPath normalizedTarget
          if (lookupA st.edges edgeKey).isSome then st
          else { st with edges := st.edges ++ [(edgeKey, ⟨srcPath, normalizedTarget⟩)] }
        else st

/-- One iteration of the file loop of `loadNodes`: files without
frontmatter are skipped; a node is added only when both coordinates
are numbers; then that file's `edges` array is scanned. -/
def processFile (vault : List (List Char)) (st : GraphSt) (f : MDFile) : GraphSt :=
  match f.fm with
  | none => st
  | some fm =>
      match fm.node_x, fm.node_y with
      | some (.num nx), some (.num ny) =>
          let node : CanvasNode :=
            ⟨f.path, f.path, nx, ny, nodeSizeVal fm.node_size, f.basename⟩
          let st1 : GraphSt := { st with nodes := setAssoc st.nodes f.path node }
          match fm.edges with
          | some items => items.foldl (processEntry vault f.path) st1
          | none => st1
      | _, _ => st

/-- `loadNodes`: clear both maps and scan every file. -/
def loadNodes (vault : List (List Char)) (files : List MDFile) : GraphSt :=
  files.foldl (processFile vault) ⟨[], []⟩

/-- The edges `drawLinks` actually draws: those whose two endpoints
resolve in the node map (`if (!sourceNode || !targetNode) continue`). -/
def drawnLinks (st : GraphSt) : List (List Char × CEdge) :=
  st.edges.filter fun e =>
    (lookupA st.nodes e.2.source).isSome && (lookupA st.nodes e.2.target).isSome

/-- The edge-completion decision of `onMouseUp` while `edgeSourceNode`
is set: an edge is created only when a node is under the pointer and
it differs from the source node. -/
def onMouseUpEdgeTarget (sourceNode : CanvasNode) (targetNode : Option CanvasNode) :
    Option (CanvasNode × CanvasNode) :=
  match targetNode with
  | none => none
  | some t => if t = sourceNode then none else some (sourceNode, t)

/-! ## The frontmatter text layer

`saveNodePosition` and `saveEdgesToFrontmatter` patch the document text
with JavaScript regular expressions.  The block regex is
`^---\s*\n([\s\S]*?)\n---\s*\n` (no `m` flag, so anchored at the start
of the string): literal `---`, a greedy whitespace run followed by a
newline, a lazy capture, then `\n---`, and again a greedy whitespace
run followed by a newline.  The functions below reproduce the
backtracking order of that regex: longest opening whitespace first,
shortest capture first, and for the trailing `\s*\n` the longest
whitespace ending at a newline (no later constraint can force it to
backtrack). -/

/-- Greedy `\s*\n` on `v`: the largest `j` with `v.take j` all
whitespace and `v[j] = '\n'` (that is, the index of the last newline
inside the maximal whitespace prefix), or `none` when no such `j`
exists. -/
def lastNlIdx : List Char → Option Nat
  | [] => none
  | c :: v =>
      if isWs c then
        match lastNlIdx v with
        | some j => some (j + 1)
        | none => if c = '\n' then some 0 else none
      else none

/-- Lazy search for `\n---` followed by a successful `\s*\n`: returns
the offset of the `\n` together with the length consumed by the
trailing `\s*\n`. -/
def findClose : List Char → Option (Nat × Nat)
  | [] => none
  | c :: v =>
      match (if c = '\n' ∧ (s "---").isPrefixOf v then lastNlIdx (v.drop 3) else none) with
      | some j => some (0, j + 1)
      | none => (findClose v).map (fun p => (p.1 + 1, p.2))

/-- Ascending newline positions inside the maximal whitespace prefix:
the candidate lengths for the opening `\s*`. -/
def nlChoices : List Char → List Nat
  | [] => []
  | c :: v =>
      if isWs c then (if c = '\n' then [0] else []) ++ (nlChoices v).map (· + 1)
      else []

/-- The opening `\s*` candidates in the order the regex engine tries
them: longest first. -/
def descChoices (u : List Char) : List Nat := (nlChoices u).reverse

/-- Try each opening choice `a` (the consumed `\s*` length, `u[a]`
being the matched `\n`); for the first one whose remainder admits a
close, return the capture and the text after the whole match. -/
def tryOpens (u : List Char) : List Nat → Option (List Char × List Char)
  | [] => none
  | a :: more =>
      match findClose (u.drop (a + 1)) with
      | some (i, cc) =>
          some ((u.drop (a + 1)).take i, (u.drop (a + 1)).drop (i + 4 + cc))
      | none => tryOpens u more

/-- Match of `/^---\s*\n([\s\S]*?)\n---\s*\n/` against `t`: the
captured group and the text following the match. -/
def frontmatterMatch (t : List Char) : Option (List Char × List Char) :=
  if (s "---").isPrefixOf t then
    tryOpens (t.drop 3) (descChoices (t.drop 3))
  else none

/-- The text after the matched attribute block, or the whole text when
no block matches. -/
def matchRest (t : List Char) : List Char :=
  match frontmatterMatch t with
  | some (_, rest) => rest
  | none => t

/-- The `\s*:` after the key: skip the maximal whitespace run, then
require `:` (a shorter run cannot succeed, since the character after
it would be whitespace, not `:`).  Returns the number of characters
consumed including the colon. -/
def wsColon : List Char → Option Nat
  | [] => none
  | c :: rest => if isWs c then (wsColon rest).map (· + 1) else if c = ':' then some 1 else none

/-- Length of `.*` up to the end of the line: characters until the
first terminator (or the end of the text), where both the greedy
`.*$/m` of the position keys and the lazy `.*?(?=\n\w|\n---|$)/ms` of
the `edges` key stop (the `$` alternative of the lookahead holds at
every line end, subsuming the other two alternatives). -/
def lineTail : List Char → Nat
  | [] => 0
  | c :: rest => if isTerm c then 0 else lineTail rest + 1

/-- Match of `key\s*:` at the head of `fmSuffix` together with the rest
of the line holding the `:`.  Returns the replacement region's
length. -/
def matchKeyAt (key fmSuffix : List Char) : Option Nat :=
  if key.isPrefixOf fmSuffix then
    match wsColon (fmSuffix.drop key.length) with
    | some m => some (key.length + m + lineTail (fmSuffix.drop (key.length + m)))
    | none => none
  else none

/-- Scan for the leftmost line start where `matchKeyAt` succeeds.
`atLS` records whether the current position follows a line terminator
(or is the start of the string), which is where the `m`-flagged `^`
matches. -/
def findKeyAux (key : List Char) : List Char → Nat → Bool → Option (Nat × Nat)
  | [], _, _ => none
  | c :: rest, pos, atLS =>
      if atLS then
        match matchKeyAt key (c :: rest) with
        | some len => some (pos, pos + len)
        | none => findKeyAux key rest (pos + 1) (isTerm c)
      else findKeyAux key rest (pos + 1) (isTerm c)

/-- Leftmost match of `/^key\s*:/m` in `fm` with the replacement
region's end. -/
def findKey (key fm : List Char) : Option (Nat × Nat) := findKeyAux key fm 0 true

/-- `key: value` — replace the matched region in place, or append
`\nkey: value` at the end of the block when the key is absent. -/
def patchKey (key valStr fm : List Char) : List Char :=
  match findKey key fm with
  | some (p, e) => fm.take p ++ (key ++ s ": " ++ valStr) ++ fm.drop e
  | none => fm ++ '\n' :: (key ++ s ": " ++ valStr)

/-- Decimal digits of a natural number (structural fuel so that the
kernel can evaluate it). -/
def natStrAux : Nat → Nat → List Char
  | 0, _ => []
  | fuel + 1, n =>
      if n < 10 then [Char.ofNat (48 + n)]
      else natStrAux fuel (n / 10) ++ [Char.ofNat (48 + n % 10)]

/-- Decimal rendering of a natural number. -/
def natStr (n : Nat) : List Char := natStrAux (n + 1) n

/-- JavaScript rendering of an integer (what `${Math.round(x)}`
interpolates). -/
def intStr (n : Int) : List Char :=
  if n < 0 then '-' :: natStr n.natAbs else natStr n.natAbs

/-- `Math.round`: floor of `q + 1/2`. -/
def jsRound (q : ℚ) : Int := ⌊q + 1/2⌋

/-- `saveNodePosition`'s pure text transformation, already given the
rounded coordinates: patch `node_x` and `node_y` inside the matched
block and splice the rebuilt block over the matched region, or prepend
a fresh block when no block matches. -/
def saveNodePositionText (t : List Char) (x y : Int) : List Char :=
  match frontmatterMatch t with
  | some (fm, rest) =>
      let fm2 := patchKey (s "node_y") (intStr y)
        (patchKey (s "node_x") (intStr x) fm)
      s "---\n" ++ fm2 ++ s "\n---\n" ++ rest
  | none =>
      s "---\nnode_x: " ++ intStr x ++ s "\nnode_y: " ++ intStr y ++ s "\n---\n\n" ++ t

/-- The YAML the source writes for a non-empty edge list: inline for a
single target, a dash list otherwise. -/
def edgesYaml (edges : List (List Char)) : List Char :=
  match edges with
  | [e] => s "edges: [\"" ++ e ++ s "\"]"
  | _ =>
      s "edges:\n" ++
        List.intercalate ['\n'] (edges.map (fun e => s "  - \"" ++ e ++ s "\""))

/-- `saveEdgesToFrontmatter`'s pure text transformation given the
current edge list for the node: replace or append the `edges` entry
when the list is non-empty, remove the matched `edges` region when it
is empty, rebuild the block; without a block, prepend one only when
the list is non-empty. -/
def saveEdgesText (t : List Char) (edges : List (List Char)) : List Char :=
  match frontmatterMatch t with
  | some (fm, rest) =>
      let fm' :=
        if edges.isEmpty then
          match findKey (s "edges") fm with
          | some (p, e) => fm.take p ++ fm.drop e
          | none => fm
        else
          match findKey (s "edges") fm with
          | some (p, e) => fm.take p ++ edgesYaml edges ++ fm.drop e
          | none => fm ++ '\n' :: edgesYaml edges
      s "---\n" ++ fm' ++ s "\n---\n" ++ rest
  | none =>
      if edges.isEmpty then t
      else s "---\n" ++ edgesYaml edges ++ s "\n---\n\n" ++ t

/-! ## Write-back runs (locate / read / modify, and the catch handler) -/

/-- Outcome of one write-back: the text written, if any, and whether
the `catch` handler logged an error. -/
structure SaveRun where
  written : Option (List Char)
  loggedError : Bool
deriving DecidableEq, Repr

/-- `saveNodePosition` including its control flow: a missing file
returns silently before the `try`; an I/O failure inside the `try` is
caught and logged; otherwise the patched text is written. -/
def saveNodePositionRun (located ioFails : Bool) (content : List Char)
    (x y : Int) : SaveRun :=
  if !located then ⟨none, false⟩
  else if ioFails then ⟨none, true⟩
  else ⟨some (saveNodePositionText content x y), false⟩

/-- `saveEdgesToFrontmatter` including its control flow. -/
def saveEdgesRun (located ioFails : Bool) (content : List Char)
    (edges : List (List Char)) : SaveRun :=
  if !located then ⟨none, false⟩
  else if ioFails then ⟨none, true⟩
  else ⟨some (saveEdgesText content edges), false⟩

/-- The controller state the drag-release handler touches. -/
structure CtrlState where
  nodes : List (List Char × CanvasNode)
  edges : List (List Char × CEdge)
  selectedNode : Option (List Char)
  isDragging : Bool
deriving DecidableEq, Repr

/-- The drag-release branch of `onMouseUp`: fire the write-back and
clear the drag state; the node and edge maps are not touched, whatever
the write-back's outcome. -/
def dragReleaseStep (st : CtrlState) (located ioFails : Bool)
    (content : List Char) (x y : Int) : CtrlState × SaveRun :=
  (⟨st.nodes, st.edges, none, false⟩, saveNodePositionRun located ioFails content x y)

/-! ## Helper predicates used by the idempotence analysis -/

/-- The whitespace run at the head of `r` contains no newline: the
trailing `\s*\n` of a preceding block match never reaches into such a
remainder. -/
def restOk (r : List Char) : Bool := (r.takeWhile isWs).all (fun c => c != '\n')

/-- No `-` directly after a newline anywhere in the list (hence no
`\n---`, so the lazy capture cannot close early inside it). -/
def noNlDashB : List Char → Bool
  | [] => true
  | [_] => true
  | c :: d :: rest => !(c = '\n' && d = '-') && noNlDashB (d :: rest)

/-- Line-start state after scanning a list, starting from `ls`. -/
def endLS : Bool → List Char → Bool
  | ls, [] => ls
  | _, c :: rest => endLS (isTerm c) rest

/-- The scan of `findKeyAux` restricted to the first part of an
append, but matching against the full continuation: used to split a
scan over `A ++ B`. -/
def findKeyAuxExt (key B : List Char) : List Char → Nat → Bool → Option (Nat × Nat)
  | [], _, _ => none
  | c :: rest, pos, atLS =>
      if atLS then
        match matchKeyAt key (c :: (rest ++ B)) with
        | some len => some (pos, pos + len)
        | none => findKeyAuxExt key B rest (pos + 1) (isTerm c)
      else findKeyAuxExt key B rest (pos + 1) (isTerm c)

/-! # Theorems -/

/-! ## Generic association-map lemmas -/

theorem lookupA_setAssoc {α : Type} (m : List (List Char × α)) (k k' : List Char)
    (v : α) :
    lookupA (setAssoc m k' v) k = if k' = k then some v else lookupA m k := by
  induction m with
  | nil => by_cases h : k' = k <;> simp [setAssoc, lookupA, h]
  | cons hd tl ih =>
      obtain ⟨k0, v0⟩ := hd
      by_cases h0 : k0 = k'
      · subst h0
        by_cases hk : k0 = k <;> simp [setAssoc, lookupA, hk]
      · by_cases hk : k0 = k
        · subst hk
          have : ¬ k' = k0 := fun h => h0 h.symm
          simp [setAssoc, lookupA, h0, this]
        · simp [setAssoc, lookupA, h0, hk, ih]

/-! ## C4: world/screen round trip -/

/-- Claim C4: for every pan, every zoom in `[0.1, 5.0]` and every
world point `p`, `screenToWorld (worldToScreen p pan zoom) pan zoom = p`;
`worldToScreen` is `(world + pan) * zoom` and `screenToWorld` is its
exact inverse. -/
theorem C4_roundtrip (pan : ℚ × ℚ) (zoom : ℚ) (p : ℚ × ℚ)
    (h1 : 1/10 ≤ zoom) (h2 : zoom ≤ 5) :
    screenToWorld (worldToScreen p pan zoom) pan zoom = p := by
  have hz : zoom ≠ 0 := by
    intro h
    rw [h] at h1
    norm_num at h1
  simp only [screenToWorld, worldToScreen]
  rw [Prod.ext_iff]
  constructor <;> (simp only []; field_simp)

/-- Witness for C4 at a concrete transform. -/
theorem C4_roundtrip_witness :
    screenToWorld (worldToScreen (3, 4) (1, 2) (1/2)) (1, 2) (1/2) = (3, 4) :=
  C4_roundtrip (1, 2) (1/2) (3, 4) (by norm_num) (by norm_num)

/-! ## C3: zoom at point -/

/-- Claim C3 (divergence): on the code as written, a wheel step at
screen point `P = (100, 0)` from `pan = (0,0)`, `zoom = 1` (factor
`1.1`) moves the world point under `P` from `(100, 0)` to
`(900/11, 0)`: the pan adjustment `worldPos - newWorldPos` has the
wrong sign for this transform convention, so `screenToWorld(P)` is
not preserved. -/
theorem C3_wheel_zoom_moves_cursor_world_point :
    screenToWorld (100, 0) ((0 : ℚ), (0 : ℚ)) 1 = (100, 0) ∧
    screenToWorld (100, 0) (onWheelStep ((0 : ℚ), (0 : ℚ)) 1 (100, 0) false).1
        (onWheelStep ((0 : ℚ), (0 : ℚ)) 1 (100, 0) false).2 = (900/11, 0) ∧
    ((900/11 : ℚ) ≠ 100) := by
  have hclamp : clampZoom (11/10) = 11/10 := by
    rw [clampZoom, min_eq_right (by norm_num : (11/10 : ℚ) ≤ 5),
      max_eq_right (by norm_num : (1/10 : ℚ) ≤ 11/10)]
  refine ⟨?_, ?_, by norm_num⟩
  · norm_num [screenToWorld]
  · simp only [onWheelStep, screenToWorld]
    norm_num [hclamp]

/-! ## C8: zoom stays in range -/

/-- Claim C8: after a wheel step or a numeric-field input, starting
from any zoom in `[0.1, 5.0]`, the resulting zoom lies in
`[0.1, 5.0]`. -/
theorem C8_zoom_clamped (pan : ℚ × ℚ) (zoom : ℚ) (pos : ℚ × ℚ) (dir : Bool)
    (vw vh : ℚ) (inp : Option ℚ) (h1 : 1/10 ≤ zoom) (h2 : zoom ≤ 5) :
    (1/10 ≤ (onWheelStep pan zoom pos dir).2 ∧ (onWheelStep pan zoom pos dir).2 ≤ 5) ∧
    (1/10 ≤ (updateZoomFromInputStep pan zoom vw vh inp).2 ∧
      (updateZoomFromInputStep pan zoom vw vh inp).2 ≤ 5) := by
  have hc : ∀ z : ℚ, 1/10 ≤ clampZoom z ∧ clampZoom z ≤ 5 := fun z =>
    ⟨le_max_left _ _, max_le (by norm_num) (min_le_left _ _)⟩
  constructor
  · simpa only [onWheelStep] using hc _
  · cases inp with
    | none => simpa only [updateZoomFromInputStep] using ⟨h1, h2⟩
    | some v => simpa only [updateZoomFromInputStep] using hc _

/-- Witness for C8 at a concrete state. -/
theorem C8_zoom_clamped_witness :
    (1/10 ≤ (onWheelStep ((0 : ℚ), (0 : ℚ)) (49/10) (7, 3) false).2 ∧
      (onWheelStep ((0 : ℚ), (0 : ℚ)) (49/10) (7, 3) false).2 ≤ 5) ∧
    (1/10 ≤ (updateZoomFromInputStep ((0 : ℚ), (0 : ℚ)) (49/10) 800 600 (some 9)).2 ∧
      (updateZoomFromInputStep ((0 : ℚ), (0 : ℚ)) (49/10) 800 600 (some 9)).2 ≤ 5) :=
  C8_zoom_clamped (0, 0) (49/10) (7, 3) false 800 600 (some 9)
    (by norm_num) (by norm_num)

/-! ## C9: write-back failure handling -/

/-- Claim C9 (counterexample): when the backing document cannot be
located, `saveNodePosition` returns before the `try` block and nothing
is reported to any diagnostic sink, contradicting the claim that the
failure is reported. -/
theorem C9_counterexample :
    (saveNodePositionRun false false (s "body") 1 2).loggedError = false ∧
    (saveEdgesRun false false (s "body") []).loggedError = false := ⟨rfl, rfl⟩

/-- Claim C9 (amended): an error is logged exactly when the document
was located and the read/write raised; the missing-document path is
abandoned silently; and the in-memory node and edge maps are unchanged
by the drag-release write-back in every case. -/
theorem C9_failure_handling (located ioFails : Bool) (c : List Char) (x y : Int)
    (es : List (List Char)) (st : CtrlState) :
    ((saveNodePositionRun located ioFails c x y).loggedError = (located && ioFails)) ∧
    ((saveEdgesRun located ioFails c es).loggedError = (located && ioFails)) ∧
    (dragReleaseStep st located ioFails c x y).1.nodes = st.nodes ∧
    (dragReleaseStep st located ioFails c x y).1.edges = st.edges := by
  cases located <;> cases ioFails <;>
    simp [saveNodePositionRun, saveEdgesRun, dragReleaseStep]

/-! ## C10: falsy node_size -/

/-- Claim C10: a declared `node_size` of `0` is falsy and the node
gets the default size `20`; a negative declared `node_size` is stored
unchanged. -/
theorem C10_node_size (vault : List (List Char)) :
    (loadNodes vault
        [⟨s "A.md", s "A", some ⟨some (.num 1), some (.num 2), some 0, none⟩⟩]).nodes
      = [(s "A.md", ⟨s "A.md", s "A.md", 1, 2, 20, s "A"⟩)] ∧
    ∀ v : ℚ, v < 0 → nodeSizeVal (some v) = v := by
  constructor
  · rfl
  · intro v hv
    simp only [nodeSizeVal]
    rw [if_neg (ne_of_lt hv)]

/-- Witness for C10's negative-size conjunct. -/
theorem C10_node_size_witness : nodeSizeVal (some (-3)) = -3 :=
  (C10_node_size []).2 (-3) (by norm_num)

/-! ## C6 / C7: edge-set invariants of `loadNodes` -/

theorem processEntry_nodes (vault : List (List Char)) (src : List Char)
    (st : GraphSt) (it : EItem) : (processEntry vault src st it).nodes = st.nodes := by
  cases it <;> simp only [processEntry] <;> split_ifs <;> rfl

theorem isSome_lookupA_setAssoc {α : Type} (m : List (List Char × α))
    (k k' : List Char) (v : α) (h : (lookupA m k).isSome = true) :
    (lookupA (setAssoc m k' v) k).isSome = true := by
  rw [lookupA_setAssoc]
  split_ifs <;> simp [h]

theorem processEntry_inv (vault : List (List Char)) (src : List Char)
    (st : GraphSt) (it : EItem)
    (hsrc : (lookupA st.nodes src).isSome = true)
    (h : ∀ k e, (k, e) ∈ st.edges → (lookupA st.nodes e.source).isSome = true) :
    ∀ k e, (k, e) ∈ (processEntry vault src st it).edges →
      (lookupA (processEntry vault src st it).nodes e.source).isSome = true := by
  intro k e hm
  rw [processEntry_nodes]
  cases it with
  | nonstr => exact h k e hm
  | str t =>
      simp only [processEntry] at hm
      split_ifs at hm <;>
        first
        | exact h k e hm
        | · simp only [List.mem_append, List.mem_singleton] at hm
            rcases hm with hm | hm
            · exact h k e hm
            · rw [Prod.mk.injEq] at hm
              obtain ⟨-, he⟩ := hm
              subst he
              exact hsrc

theorem foldEntries_inv (vault : List (List Char)) (src : List Char)
    (items : List EItem) :
    ∀ st : GraphSt, (lookupA st.nodes src).isSome = true →
      (∀ k e, (k, e) ∈ st.edges → (lookupA st.nodes e.source).isSome = true) →
      ∀ k e, (k, e) ∈ (items.foldl (processEntry vault src) st).edges →
        (lookupA (items.foldl (processEntry vault src) st).nodes e.source).isSome = true := by
  induction items with
  | nil => intro st _ h2; simpa using h2
  | cons it rest ih =>
      intro st h1 h2
      simp only [List.foldl_cons]
      exact ih (processEntry vault src st it)
        (by rw [processEntry_nodes]; exact h1)
        (processEntry_inv vault src st it h1 h2)

theorem processFile_inv (vault : List (List Char)) (st : GraphSt) (f : MDFile)
    (h : ∀ k e, (k, e) ∈ st.edges → (lookupA st.nodes e.source).isSome = true) :
    ∀ k e, (k, e) ∈ (processFile vault st f).edges →
      (lookupA (processFile vault st f).nodes e.source).isSome = true := by
  intro k e
  unfold processFile
  split
  · exact h k e
  · split
    · split
      · refine foldEntries_inv vault f.path _ _ ?_ ?_ k e
        · rw [lookupA_setAssoc]
          simp
        · intro k' e' hm
          exact isSome_lookupA_setAssoc _ _ _ _ (h k' e' hm)
      · intro hm
        rw [lookupA_setAssoc]
        split_ifs with hp
        · simp
        · exact h k e hm
    · exact h k e

theorem loadNodes_foldl_inv (vault : List (List Char)) (files : List MDFile) :
    ∀ st : GraphSt,
      (∀ k e, (k, e) ∈ st.edges → (lookupA st.nodes e.source).isSome = true) →
      ∀ k e, (k, e) ∈ (files.foldl (processFile vault) st).edges →
        (lookupA (files.foldl (processFile vault) st).nodes e.source).isSome = true := by
  induction files with
  | nil => intro st h; simpa using h
  | cons f rest ih =>
      intro st h
      simp only [List.foldl_cons]
      exact ih (processFile vault st f) (processFile_inv vault st f h)

/-- Claim C6 (counterexample): a file `A.md` with coordinates whose
`edges` lists `B`, where `B.md` exists in the vault but has no
position attributes, yields a model whose edge set contains
`A.md → B.md` while `B.md` is not in the node map: dangling references
are kept in the model's edge set, not dropped. -/
theorem C6_counterexample :
    (loadNodes [s "A.md", s "B.md"]
        [⟨s "A.md", s "A", some ⟨some (.num 1), some (.num 2), none, some [.str (s "B")]⟩⟩,
         ⟨s "B.md", s "B", some ⟨none, none, none, none⟩⟩]).edges
      = [(s "A.md|B.md", ⟨s "A.md", s "B.md"⟩)] ∧
    lookupA (loadNodes [s "A.md", s "B.md"]
        [⟨s "A.md", s "A", some ⟨some (.num 1), some (.num 2), none, some [.str (s "B")]⟩⟩,
         ⟨s "B.md", s "B", some ⟨none, none, none, none⟩⟩]).nodes (s "B.md") = none := by
  exact ⟨rfl, rfl⟩

/-- Claim C6 (amended): after every rebuild, every edge's source is
present in the node map, and the rendered links (`drawLinks` skips an
edge when either endpoint is missing) have both endpoints present;
an edge whose target is not a node stays in the model's edge set but
is dropped from the rendered graph. -/
theorem C6_edge_endpoints (vault : List (List Char)) (files : List MDFile) :
    (∀ k e, (k, e) ∈ (loadNodes vault files).edges →
      (lookupA (loadNodes vault files).nodes e.source).isSome = true) ∧
    (∀ k e, (k, e) ∈ drawnLinks (loadNodes vault files) →
      (lookupA (loadNodes vault files).nodes e.source).isSome = true ∧
      (lookupA (loadNodes vault files).nodes e.target).isSome = true) := by
  constructor
  · exact loadNodes_foldl_inv vault files ⟨[], []⟩ (by simp)
  · intro k e hm
    simp only [drawnLinks, List.mem_filter, Bool.and_eq_true] at hm
    exact hm.2

/-- Witness for C6 at a concrete rebuild. -/
theorem C6_edge_endpoints_witness :
    (lookupA (loadNodes [s "A.md", s "B.md"]
        [⟨s "A.md", s "A", some ⟨some (.num 1), some (.num 2), none, some [.str (s "B")]⟩⟩,
         ⟨s "B.md", s "B", some ⟨none, none, none, none⟩⟩]).nodes (s "A.md")).isSome
      = true :=
  (C6_edge_endpoints [s "A.md", s "B.md"]
      [⟨s "A.md", s "A", some ⟨some (.num 1), some (.num 2), none, some [.str (s "B")]⟩⟩,
       ⟨s "B.md", s "B", some ⟨none, none, none, none⟩⟩]).1
    (s "A.md|B.md") ⟨s "A.md", s "B.md"⟩ (by decide)

/-- Claim C7 (counterexample): a file `A.md` whose `edges` lists the
bare reference `A` passes the raw-string comparison
`targetPath !== file.path`, is normalized to `A.md`, resolves to an
existing file, and is registered: a self-edge enters the model. -/
theorem C7_counterexample :
    (loadNodes [s "A.md"]
        [⟨s "A.md", s "A", some ⟨some (.num 1), some (.num 2), none, some [.str (s "A")]⟩⟩]).edges
      = [(s "A.md|A.md", ⟨s "A.md", s "A.md"⟩)] := by
  rfl

/-- Claim C7 (amended): during rebuild an entry textually equal to the
source id is skipped (the comparison happens before the suffix is
appended, so a bare reference to the source itself still produces a
self-edge), and interactive edge creation rejects a target node equal
to the source node. -/
theorem C7_self_edges (vault : List (List Char)) (src : List Char) (st : GraphSt)
    (n : CanvasNode) :
    processEntry vault src st (.str src) = st ∧
    onMouseUpEdgeTarget n (some n) = none := by
  constructor
  · simp [processEntry]
  · simp [onMouseUpEdgeTarget]

/-! ## C1: the write-back and the text outside the block -/

/-- Claim C1 (counterexample): the trailing `\s*\n` of the block regex
greedily swallows blank lines between the closing delimiter and the
body, and the rebuilt block writes a single newline back: after the
write, the content that followed the block (one blank line, then
`body`) no longer appears in the text. -/
theorem C1_counterexample :
    saveNodePositionText (s "---\nnode_x: 1\n---\n\n\nbody") 5 7
      = s "---\nnode_x: 5\nnode_y: 7\n---\nbody" ∧
    ¬ (s "\n\nbody") <:+: s "---\nnode_x: 5\nnode_y: 7\n---\nbody" := by
  refine ⟨rfl, by decide⟩

theorem tryOpens_rest_drop (u : List Char) :
    ∀ (ch : List Nat) (fm rest : List Char),
      tryOpens u ch = some (fm, rest) → ∃ m, rest = u.drop m := by
  intro ch
  induction ch with
  | nil => intro fm rest h; simp [tryOpens] at h
  | cons a more ih =>
      intro fm rest h
      rw [tryOpens] at h
      cases hf : findClose (u.drop (a + 1)) with
      | none => rw [hf] at h; exact ih fm rest h
      | some p =>
          obtain ⟨i, cc⟩ := p
          rw [hf] at h
          simp only [Option.some.injEq, Prod.mk.injEq] at h
          refine ⟨(a + 1) + (i + 4 + cc), ?_⟩
          rw [← h.2, List.drop_drop]

theorem matchRest_none {t : List Char} (h : frontmatterMatch t = none) :
    matchRest t = t := by
  unfold matchRest
  rw [h]

theorem matchRest_some {t fm rest : List Char}
    (h : frontmatterMatch t = some (fm, rest)) : matchRest t = rest := by
  unfold matchRest
  rw [h]

theorem saveNPT_none {t : List Char} {x y : Int} (h : frontmatterMatch t = none) :
    saveNodePositionText t x y
      = s "---\nnode_x: " ++ intStr x ++ s "\nnode_y: " ++ intStr y ++ s "\n---\n\n" ++ t := by
  unfold saveNodePositionText
  rw [h]

theorem saveNPT_some {t fm rest : List Char} {x y : Int}
    (h : frontmatterMatch t = some (fm, rest)) :
    saveNodePositionText t x y
      = s "---\n" ++ patchKey (s "node_y") (intStr y) (patchKey (s "node_x") (intStr x) fm) ++
          s "\n---\n" ++ rest := by
  unfold saveNodePositionText
  rw [h]

theorem saveET_none {t : List Char} {es : List (List Char)}
    (h : frontmatterMatch t = none) :
    saveEdgesText t es
      = if es.isEmpty then t else s "---\n" ++ edgesYaml es ++ s "\n---\n\n" ++ t := by
  unfold saveEdgesText
  rw [h]

theorem saveET_some {t fm rest : List Char} (es : List (List Char))
    (h : frontmatterMatch t = some (fm, rest)) :
    ∃ fm', saveEdgesText t es = s "---\n" ++ fm' ++ s "\n---\n" ++ rest := by
  unfold saveEdgesText
  rw [h]
  exact ⟨_, rfl⟩

theorem matchRest_is_drop (t : List Char) : ∃ m, matchRest t = t.drop m := by
  cases h : frontmatterMatch t with
  | none => exact ⟨0, by rw [matchRest_none h, List.drop_zero]⟩
  | some p =>
      obtain ⟨fm, rest⟩ := p
      rw [matchRest_some h]
      rw [frontmatterMatch] at h
      split_ifs at h
      · obtain ⟨m, hm⟩ := tryOpens_rest_drop (t.drop 3) _ fm rest h
        refine ⟨3 + m, ?_⟩
        rw [hm, List.drop_drop]

/-- Claim C1 (amended): both write-backs keep, verbatim as the tail of
the output, everything that follows the matched region (the block
together with the whitespace run its trailing `\s*\n` consumes); when
no block matches, the whole original text is the tail.  The blank
lines the trailing `\s*\n` consumes are part of the matched region and
may be collapsed. -/
theorem C1_frame (t : List Char) (x y : Int) (es : List (List Char)) :
    matchRest t <:+ saveNodePositionText t x y ∧
    matchRest t <:+ saveEdgesText t es ∧
    ∃ m, matchRest t = t.drop m := by
  refine ⟨?_, ?_, matchRest_is_drop t⟩
  · cases h : frontmatterMatch t with
    | none =>
        rw [matchRest_none h, saveNPT_none h]
        exact List.suffix_append _ _
    | some p =>
        obtain ⟨fm, rest⟩ := p
        rw [matchRest_some h, saveNPT_some h]
        exact List.suffix_append _ _
  · cases h : frontmatterMatch t with
    | none =>
        rw [matchRest_none h, saveET_none h]
        split_ifs
        · exact List.suffix_rfl
        · exact List.suffix_append _ _
    | some p =>
        obtain ⟨fm, rest⟩ := p
        obtain ⟨fm', he⟩ := saveET_some es h
        rw [matchRest_some h, he]
        exact List.suffix_append _ _

/-! ## C2: idempotence of the write-back -/

/-- Claim C2 (counterexample): for a document without an attribute
block, the first position write prepends a block ending in a blank
line, which the second write's match swallows, so
`write(write(t, p), p) ≠ write(t, p)`; and for a two-target edge
patch, the multi-line YAML's replacement region covers only the
`edges:` token (the lazy `.*?` stops at the first `$`), so reapplying
it duplicates the dash lines. -/
theorem C2_counterexample :
    saveNodePositionText (saveNodePositionText (s "hello") 5 7) 5 7
      ≠ saveNodePositionText (s "hello") 5 7 ∧
    saveEdgesText (saveEdgesText (s "---\nnode_x: 1\n---\nbody")
        [s "A.md", s "B.md"]) [s "A.md", s "B.md"]
      ≠ saveEdgesText (s "---\nnode_x: 1\n---\nbody") [s "A.md", s "B.md"] := by
  refine ⟨by decide, by decide⟩

/-! ## C5: writing an empty edge list -/

/-- Claim C5: writing an empty edge list to a document whose block
holds a multi-line `edges` entry removes only the `edges:` token (the
replacement regex's lazy `.*?` stops at the first position where `$`
holds, which is immediately before the newline after the colon), and
the indented list lines survive in the output — contradicting the
code's own comment "Remove edges line and any following array items"
and the claim. -/
theorem C5_empty_edge_write_keeps_items :
    saveEdgesText (s "---\nnode_x: 1\nedges:\n  - \"A.md\"\n---\nbody") []
      = s "---\nnode_x: 1\n\n  - \"A.md\"\n---\nbody" ∧
    (s "  - \"A.md\"") <:+: saveEdgesText (s "---\nnode_x: 1\nedges:\n  - \"A.md\"\n---\nbody") [] := by
  refine ⟨rfl, by decide⟩

/-! ## C2 (amended): the matcher on a normalized block -/

theorem lastNlIdx_of_restOk {r : List Char} (h : restOk r = true) :
    lastNlIdx r = none := by
  induction r with
  | nil => rfl
  | cons c r' ih =>
      rw [lastNlIdx]
      by_cases hc : isWs c = true
      · rw [restOk, List.takeWhile_cons, if_pos hc, List.all_cons,
          Bool.and_eq_true] at h
        have hr' : restOk r' = true := h.2
        have hcn : ¬ c = '\n' := by
          intro hcn
          subst hcn
          simpa using h.1
        rw [if_pos hc, ih hr', if_neg hcn]
      · rw [if_neg hc]

theorem noNlDashB_tail {c : Char} {l : List Char} (h : noNlDashB (c :: l) = true) :
    noNlDashB l = true := by
  cases l with
  | nil => rfl
  | cons d l' =>
      rw [noNlDashB, Bool.and_eq_true] at h
      exact h.2

theorem noNlDashB_head_pair {d : Char} {l : List Char}
    (h : noNlDashB ('\n' :: d :: l) = true) : d ≠ '-' := by
  intro hd
  subst hd
  rw [noNlDashB, Bool.and_eq_true] at h
  simpa using h.1

theorem dash_isPrefixOf_false {d : Char} (hd : d ≠ '-') (l : List Char) :
    ((s "---").isPrefixOf (d :: l)) = false := by
  show (('-' :: '-' :: '-' :: []).isPrefixOf (d :: l)) = false
  rw [List.isPrefixOf]
  simp [Ne.symm hd]

theorem findClose_closing {r : List Char} (hr : restOk r = true) :
    findClose ('\n' :: '-' :: '-' :: '-' :: '\n' :: r) = some (0, 1) := by
  have h2 : lastNlIdx ('\n' :: r) = some 0 := by
    rw [lastNlIdx, lastNlIdx_of_restOk hr]
    rfl
  have h3 : (('-' :: '-' :: '-' :: '\n' :: r : List Char)).drop 3 = '\n' :: r := rfl
  rw [findClose, h3, h2]
  rw [if_pos ⟨rfl, by rfl⟩]

theorem findClose_append {f : List Char} (r : List Char)
    (hf : noNlDashB f = true) (hr : restOk r = true) :
    findClose (f ++ '\n' :: '-' :: '-' :: '-' :: '\n' :: r) = some (f.length, 1) := by
  induction f with
  | nil => simpa using findClose_closing hr
  | cons c f' ih =>
      have hf' : noNlDashB f' = true := noNlDashB_tail hf
      rw [List.cons_append, findClose]
      have hcond : (if c = '\n' ∧ ((s "---").isPrefixOf (f' ++ '\n' :: '-' :: '-' :: '-' :: '\n' :: r)) = true
          then lastNlIdx ((f' ++ '\n' :: '-' :: '-' :: '-' :: '\n' :: r).drop 3) else none) = none := by
        by_cases hc : c = '\n'
        · subst hc
          have hpre : ((s "---").isPrefixOf (f' ++ '\n' :: '-' :: '-' :: '-' :: '\n' :: r)) = false := by
            cases f' with
            | nil => rfl
            | cons d f'' =>
                rw [List.cons_append]
                exact dash_isPrefixOf_false (noNlDashB_head_pair hf) _
          rw [if_neg]
          intro hcontra
          rw [hpre] at hcontra
          exact Bool.noConfusion hcontra.2
        · rw [if_neg (fun hh => hc hh.1)]
      rw [hcond, ih hf']
      rfl

theorem nlChoices_cons_nonws {c : Char} (l : List Char) (hc : isWs c = false) :
    nlChoices (c :: l) = [] := by
  rw [nlChoices, if_neg]
  simp [hc]

theorem frontmatterMatch_normalized (c₀ : Char) (f' r : List Char)
    (hc : isWs c₀ = false) (hf : noNlDashB (c₀ :: f') = true) (hr : restOk r = true) :
    frontmatterMatch (s "---\n" ++ (c₀ :: f') ++ s "\n---\n" ++ r)
      = some (c₀ :: f', r) := by
  have hT : s "---\n" ++ (c₀ :: f') ++ s "\n---\n" ++ r
      = '-' :: '-' :: '-' :: '\n' :: ((c₀ :: f') ++ ('\n' :: '-' :: '-' :: '-' :: '\n' :: r)) := by
    simp [s, List.append_assoc]
  rw [hT, frontmatterMatch, if_pos (by rfl)]
  have hdrop : (('-' :: '-' :: '-' :: '\n' :: ((c₀ :: f') ++ ('\n' :: '-' :: '-' :: '-' :: '\n' :: r)) : List Char)).drop 3
      = '\n' :: ((c₀ :: f') ++ ('\n' :: '-' :: '-' :: '-' :: '\n' :: r)) := rfl
  rw [hdrop]
  have hch : descChoices ('\n' :: ((c₀ :: f') ++ ('\n' :: '-' :: '-' :: '-' :: '\n' :: r))) = [0] := by
    rw [descChoices, nlChoices, if_pos (by rfl), List.cons_append,
      nlChoices_cons_nonws _ hc]
    rfl
  rw [hch, tryOpens]
  have hdrop1 : (('\n' :: ((c₀ :: f') ++ ('\n' :: '-' :: '-' :: '-' :: '\n' :: r)) : List Char)).drop (0 + 1)
      = (c₀ :: f') ++ ('\n' :: '-' :: '-' :: '-' :: '\n' :: r) := rfl
  rw [hdrop1, findClose_append r hf hr]
  have hlen : (c₀ :: f').length + 4 + 1 = (c₀ :: f').length + 5 := by omega
  simp only [hlen, List.take_left, List.drop_append]
  rfl

theorem findKeyAux_append (k B : List Char) :
    ∀ (A : List Char) (pos : Nat) (ls : Bool),
      findKeyAux k (A ++ B) pos ls
        = (match findKeyAuxExt k B A pos ls with
           | some v => some v
           | none => findKeyAux k B (pos + A.length) (endLS ls A)) := by
  intro A
  induction A with
  | nil =>
      intro pos ls
      simp [findKeyAuxExt, endLS]
  | cons c A' ih =>
      intro pos ls
      have harith : pos + 1 + A'.length = pos + (A'.length + 1) := by omega
      rw [List.cons_append]
      cases ls with
      | false =>
          rw [findKeyAux, findKeyAuxExt]
          simp only [Bool.false_eq_true, if_false]
          rw [ih, harith]
          rfl
      | true =>
          rw [findKeyAux, findKeyAuxExt]
          simp only [if_true]
          cases hm : matchKeyAt k (c :: (A' ++ B)) with
          | some len => simp [hm]
          | none =>
              simp only [hm]
              rw [ih, harith]
              rfl

theorem isPrefixOf_exists {k σ : List Char} (h : k.isPrefixOf σ = true) :
    ∃ after, σ = k ++ after := by
  induction k generalizing σ with
  | nil => exact ⟨σ, rfl⟩
  | cons a k' ih =>
      cases σ with
      | nil => simp [List.isPrefixOf] at h
      | cons b σ' =>
          rw [List.isPrefixOf, Bool.and_eq_true] at h
          obtain ⟨hab, h'⟩ := h
          obtain ⟨after, rfl⟩ := ih h'
          rw [beq_iff_eq] at hab
          exact ⟨after, by rw [hab, List.cons_append]⟩

theorem isPrefixOf_self_append (k X : List Char) : k.isPrefixOf (k ++ X) = true := by
  induction k with
  | nil => simp [List.isPrefixOf]
  | cons a k' ih => simp [List.isPrefixOf, ih]

theorem prefix_stop {k : List Char} (hk : ∀ c ∈ k, isWs c = false) :
    ∀ (σ W : List Char), k.isPrefixOf σ = false →
      k.isPrefixOf (σ ++ '\n' :: W) = false := by
  induction k with
  | nil => intro σ W h; simp [List.isPrefixOf] at h
  | cons a k' ih =>
      intro σ W h
      cases σ with
      | nil =>
          have ha : isWs a = false := hk a (by simp)
          have hne : (a == '\n') = false := by
            rw [beq_eq_false_iff_ne]
            intro hEq
            subst hEq
            simp [isWs] at ha
          rw [List.nil_append, List.isPrefixOf, hne, Bool.false_and]
      | cons b σ' =>
          rw [List.cons_append, List.isPrefixOf]
          rw [List.isPrefixOf] at h
          cases hab : (a == b) with
          | false => rw [Bool.false_and]
          | true =>
              rw [hab, Bool.true_and] at h
              rw [Bool.true_and]
              exact ih (fun c hc => hk c (by simp [hc])) σ' W h

theorem wsColon_extend_none {X : List Char} {d : Char} (W : List Char)
    (hd1 : isWs d = false) (hd2 : d ≠ ':') (h : wsColon X = none) :
    wsColon (X ++ '\n' :: d :: W) = none := by
  induction X with
  | nil =>
      rw [List.nil_append, wsColon, if_pos (by rfl)]
      rw [wsColon, if_neg (by simp [hd1]), if_neg hd2]
      rfl
  | cons c X' ih =>
      rw [List.cons_append, wsColon]
      rw [wsColon] at h
      by_cases hc : isWs c = true
      · rw [if_pos hc] at h ⊢
        have hX' : wsColon X' = none := by
          cases hx : wsColon X' with
          | none => rfl
          | some m => rw [hx] at h; simp at h
        rw [ih hX']
        rfl
      · rw [if_neg hc] at h ⊢
        by_cases hcc : c = ':'
        · rw [if_pos hcc] at h; exact absurd h (by simp)
        · rw [if_neg hcc]

theorem matchKeyAt_extend_none {k : List Char} (σ : List Char) {d : Char} (W : List Char)
    (hk : ∀ c ∈ k, isWs c = false)
    (hd1 : isWs d = false) (hd2 : d ≠ ':')
    (h : matchKeyAt k σ = none) :
    matchKeyAt k (σ ++ '\n' :: d :: W) = none := by
  rw [matchKeyAt] at h
  rw [matchKeyAt]
  by_cases hp : k.isPrefixOf σ = true
  · obtain ⟨after, rfl⟩ := isPrefixOf_exists hp
    have hp2 : k.isPrefixOf (k ++ after ++ '\n' :: d :: W) = true := by
      rw [List.append_assoc]
      exact isPrefixOf_self_append _ _
    rw [if_pos hp] at h
    rw [if_pos hp2]
    have hd3 : (k ++ after).drop k.length = after := List.drop_left k after
    rw [hd3] at h
    have hd4 : (k ++ after ++ '\n' :: d :: W).drop k.length = after ++ '\n' :: d :: W := by
      rw [List.append_assoc]
      exact List.drop_left _ _
    rw [hd4]
    cases hw : wsColon after with
    | none => rw [hw] at h; rw [wsColon_extend_none W hd1 hd2 hw]
    | some m => rw [hw] at h; exact absurd h (by simp)
  · have hp' : k.isPrefixOf σ = false := by
      cases hb : k.isPrefixOf σ
      · rfl
      · exact absurd hb hp
    rw [if_neg]
    rw [prefix_stop hk σ (d :: W) hp']
    simp

theorem ext_of_aux_none (k : List Char) {d : Char} (W : List Char)
    (hk : ∀ c ∈ k, isWs c = false) (hd1 : isWs d = false) (hd2 : d ≠ ':') :
    ∀ (A : List Char) (pos : Nat) (ls : Bool),
      findKeyAux k A pos ls = none →
      findKeyAuxExt k ('\n' :: d :: W) A pos ls = none := by
  intro A
  induction A with
  | nil => intro pos ls _; rfl
  | cons c A' ih =>
      intro pos ls h
      rw [findKeyAux] at h
      rw [findKeyAuxExt]
      cases ls with
      | false =>
          simp only [Bool.false_eq_true, if_false] at h ⊢
          exact ih _ _ h
      | true =>
          simp only [if_true] at h ⊢
          cases hm : matchKeyAt k (c :: A') with
          | some len => rw [hm] at h; exact absurd h (by simp)
          | none =>
              rw [hm] at h
              have hm2 : matchKeyAt k (c :: (A' ++ '\n' :: d :: W)) = none := by
                have h2 := matchKeyAt_extend_none (c :: A') W hk hd1 hd2 hm
                rwa [List.cons_append] at h2
              rw [hm2]
              exact ih _ _ h

theorem findKeyAux_skip_nl {k Z : List Char} (hm : matchKeyAt k ('\n' :: Z) = none)
    (pos : Nat) (ls : Bool) :
    findKeyAux k ('\n' :: Z) pos ls = findKeyAux k Z (pos + 1) true := by
  cases ls with
  | false =>
      rw [findKeyAux]
      simp only [Bool.false_eq_true, if_false]
      rfl
  | true =>
      rw [findKeyAux]
      simp only [if_true, hm]
      rfl

theorem findKeyAux_noterm_false (k : List Char) :
    ∀ (X : List Char), (∀ c ∈ X, isTerm c = false) →
      ∀ pos, findKeyAux k X pos false = none := by
  intro X
  induction X with
  | nil => intro _ _; rfl
  | cons c X' ih =>
      intro hX pos
      rw [findKeyAux]
      simp only [Bool.false_eq_true, if_false]
      rw [hX c (by simp)]
      exact ih (fun c' hc' => hX c' (by simp [hc'])) _

theorem scan_skip_noterm (k : List Char) :
    ∀ (X Z : List Char), (∀ c ∈ X, isTerm c = false) →
      ∀ pos, findKeyAux k (X ++ Z) pos false = findKeyAux k Z (pos + X.length) false := by
  intro X
  induction X with
  | nil => intro Z _ pos; simp
  | cons c X' ih =>
      intro Z hX pos
      rw [List.cons_append, findKeyAux]
      simp only [Bool.false_eq_true, if_false]
      rw [hX c (by simp)]
      rw [ih Z (fun c' hc' => hX c' (by simp [hc'])) (pos + 1)]
      congr 1
      simp
      omega

theorem lineTail_noterm : ∀ (X : List Char), (∀ c ∈ X, isTerm c = false) →
    lineTail X = X.length := by
  intro X
  induction X with
  | nil => intro _; rfl
  | cons c X' ih =>
      intro hX
      rw [lineTail, hX c (by simp)]
      simp only [Bool.false_eq_true, if_false]
      rw [ih (fun c' hc' => hX c' (by simp [hc']))]
      rfl

theorem lineTail_append_nl (X Z : List Char) (hX : ∀ c ∈ X, isTerm c = false) :
    lineTail (X ++ '\n' :: Z) = X.length := by
  induction X with
  | nil => rfl
  | cons c X' ih =>
      rw [List.cons_append, lineTail, hX c (by simp)]
      simp only [Bool.false_eq_true, if_false]
      rw [ih (fun c' hc' => hX c' (by simp [hc']))]
      rfl

theorem natStrAux_digit_range (fuel : Nat) :
    ∀ (n : Nat) (c : Char), c ∈ natStrAux fuel n → 48 ≤ c.toNat ∧ c.toNat ≤ 57 := by
  induction fuel with
  | zero => intro n c hc; simp [natStrAux] at hc
  | succ fuel ih =>
      intro n c hc
      rw [natStrAux] at hc
      by_cases hn : n < 10
      · rw [if_pos hn] at hc
        simp only [List.mem_singleton] at hc
        subst hc
        interval_cases n <;> simp
      · rw [if_neg hn] at hc
        rw [List.mem_append] at hc
        rcases hc with hc | hc
        · exact ih _ _ hc
        · simp only [List.mem_singleton] at hc
          subst hc
          have h10 : n % 10 < 10 := Nat.mod_lt _ (by norm_num)
          set m := n % 10 with hm
          interval_cases m <;> simp

theorem digit_not_term {c : Char} (h : 48 ≤ c.toNat ∧ c.toNat ≤ 57) :
    isTerm c = false := by
  have h1 : ¬ c = '\n' := by
    intro hEq
    subst hEq
    exact absurd h.1 (by decide)
  have h2 : ¬ c = '\x0d' := by
    intro hEq
    subst hEq
    exact absurd h.1 (by decide)
  simp [isTerm, h1, h2]

theorem intStr_no_term (n : Int) : ∀ c ∈ intStr n, isTerm c = false := by
  intro c hc
  rw [intStr] at hc
  split_ifs at hc
  · simp only [List.mem_cons] at hc
    rcases hc with hc | hc
    · subst hc; rfl
    · exact digit_not_term (natStrAux_digit_range _ _ _ hc)
  · exact digit_not_term (natStrAux_digit_range _ _ _ hc)

theorem no_nl_of_no_term {l : List Char} (h : ∀ c ∈ l, isTerm c = false) :
    ∀ c ∈ l, c ≠ '\n' := by
  intro c hc hEq
  subst hEq
  have := h _ hc
  simp [isTerm] at this

theorem noNlDashB_of_no_nl : ∀ (l : List Char), (∀ c ∈ l, c ≠ '\n') →
    noNlDashB l = true := by
  intro l
  induction l with
  | nil => intro _; rfl
  | cons c l' ih =>
      intro hl
      cases l' with
      | nil => rfl
      | cons d rest =>
          rw [noNlDashB, Bool.and_eq_true]
          constructor
          · have hc : c ≠ '\n' := hl c (by simp)
            simp [hc]
          · exact ih (fun c' hc' => hl c' (by simp [hc']))

theorem noNlDashB_cons_nl {c : Char} {X : List Char} (hc : c ≠ '-')
    (hX : noNlDashB (c :: X) = true) : noNlDashB ('\n' :: c :: X) = true := by
  rw [noNlDashB, Bool.and_eq_true]
  exact ⟨by simp [hc], hX⟩

theorem noNlDashB_append {A : List Char} {h₂ : Char} {B' : List Char}
    (hA : noNlDashB A = true) (hB : noNlDashB (h₂ :: B') = true)
    (hj : h₂ = '-' → A.getLast? ≠ some '\n') :
    noNlDashB (A ++ h₂ :: B') = true := by
  induction A with
  | nil => exact hB
  | cons a A' ih =>
      cases A' with
      | nil =>
          rw [List.cons_append, List.nil_append, noNlDashB, Bool.and_eq_true]
          refine ⟨?_, hB⟩
          by_cases ha : a = '\n'
          · subst ha
            by_cases hh : h₂ = '-'
            · exact absurd (by simp [List.getLast?]) (hj hh)
            · simp [hh]
          · simp [ha]
      | cons b A'' =>
          rw [List.cons_append, List.cons_append, noNlDashB, Bool.and_eq_true]
          constructor
          · rw [noNlDashB, Bool.and_eq_true] at hA
            exact hA.1
          · have ihA : noNlDashB (b :: A'') = true := noNlDashB_tail hA
            have hj' : h₂ = '-' → (b :: A'').getLast? ≠ some '\n' := by
              intro hh
              have hjj := hj hh
              rwa [List.getLast?_cons_cons] at hjj
            have hres := ih ihA hj'
            rwa [List.cons_append] at hres

theorem findKeyAux_append_none (k B A : List Char) (pos : Nat) (ls : Bool)
    (hE : findKeyAuxExt k B A pos ls = none) :
    findKeyAux k (A ++ B) pos ls = findKeyAux k B (pos + A.length) (endLS ls A) := by
  rw [findKeyAux_append, hE]

theorem matchKeyAt_canonical_nl (key v Z : List Char)
    (hv : ∀ c ∈ v, isTerm c = false) :
    matchKeyAt key (key ++ ':' :: ' ' :: (v ++ '\n' :: Z))
      = some (key.length + 2 + v.length) := by
  rw [matchKeyAt, if_pos (isPrefixOf_self_append _ _), List.drop_left]
  have hw : wsColon (':' :: ' ' :: (v ++ '\n' :: Z)) = some 1 := rfl
  rw [hw]
  have hd : (key ++ ':' :: ' ' :: (v ++ '\n' :: Z)).drop (key.length + 1)
      = ' ' :: (v ++ '\n' :: Z) := by
    rw [List.drop_append 1]
    rfl
  show some (key.length + 1 +
      lineTail ((key ++ ':' :: ' ' :: (v ++ '\n' :: Z)).drop (key.length + 1)))
    = some (key.length + 2 + v.length)
  rw [hd, lineTail]
  have ht : isTerm ' ' = false := rfl
  rw [ht]
  simp only [Bool.false_eq_true, if_false]
  rw [lineTail_append_nl v Z hv]
  simp only [Option.some.injEq]
  omega

theorem matchKeyAt_canonical_end (key v : List Char)
    (hv : ∀ c ∈ v, isTerm c = false) :
    matchKeyAt key (key ++ ':' :: ' ' :: v) = some (key.length + 2 + v.length) := by
  rw [matchKeyAt, if_pos (isPrefixOf_self_append _ _), List.drop_left]
  have hw : wsColon (':' :: ' ' :: v) = some 1 := rfl
  rw [hw]
  have hd : (key ++ ':' :: ' ' :: v).drop (key.length + 1) = ' ' :: v := by
    rw [List.drop_append 1]
    rfl
  show some (key.length + 1 + lineTail ((key ++ ':' :: ' ' :: v).drop (key.length + 1)))
    = some (key.length + 2 + v.length)
  rw [hd, lineTail]
  have ht : isTerm ' ' = false := rfl
  rw [ht]
  simp only [Bool.false_eq_true, if_false]
  rw [lineTail_noterm v hv]
  simp only [Option.some.injEq]
  omega

theorem noterm_ode_x (x : Int) : ∀ c ∈ s "ode_x: " ++ intStr x, isTerm c = false := by
  intro c hc
  rcases List.mem_append.mp hc with h | h
  · exact (by decide : ∀ c ∈ s "ode_x: ", isTerm c = false) c h
  · exact intStr_no_term x c h

theorem findKey_fm1_ky (f : List Char) (x : Int)
    (hy : findKey (s "node_y") f = none) :
    findKey (s "node_y") (f ++ '\n' :: (s "node_x: " ++ intStr x)) = none := by
  rw [findKey]
  have hExt : findKeyAuxExt (s "node_y") ('\n' :: (s "node_x: " ++ intStr x)) f 0 true
      = none := by
    have hsh : '\n' :: (s "node_x: " ++ intStr x)
        = '\n' :: 'n' :: (s "ode_x: " ++ intStr x) := rfl
    rw [hsh]
    exact ext_of_aux_none _ _ (by decide) (by decide) (by decide) f 0 true hy
  rw [findKeyAux_append_none _ _ _ _ _ hExt]
  have hm1 : matchKeyAt (s "node_y") ('\n' :: (s "node_x: " ++ intStr x)) = none := rfl
  rw [findKeyAux_skip_nl hm1]
  have hsh2 : s "node_x: " ++ intStr x = 'n' :: (s "ode_x: " ++ intStr x) := rfl
  rw [hsh2, findKeyAux]
  simp only [if_true]
  have hm2 : matchKeyAt (s "node_y") ('n' :: (s "ode_x: " ++ intStr x)) = none := rfl
  rw [hm2]
  have ht : isTerm 'n' = false := rfl
  rw [ht]
  exact findKeyAux_noterm_false _ _ (noterm_ode_x x) _

theorem findKey_fm2_kx (f : List Char) (x y : Int)
    (hx : findKey (s "node_x") f = none) :
    findKey (s "node_x")
        (f ++ '\n' :: ((s "node_x: " ++ intStr x) ++ '\n' :: (s "node_y: " ++ intStr y)))
      = some (f.length + 1, f.length + 1 + (s "node_x: " ++ intStr x).length) := by
  rw [findKey]
  have hExt : findKeyAuxExt (s "node_x")
      ('\n' :: ((s "node_x: " ++ intStr x) ++ '\n' :: (s "node_y: " ++ intStr y))) f 0 true
      = none := by
    have hsh : '\n' :: ((s "node_x: " ++ intStr x) ++ '\n' :: (s "node_y: " ++ intStr y))
        = '\n' :: 'n' :: ((s "ode_x: " ++ intStr x) ++ '\n' :: (s "node_y: " ++ intStr y)) := rfl
    rw [hsh]
    exact ext_of_aux_none _ _ (by decide) (by decide) (by decide) f 0 true hx
  rw [findKeyAux_append_none _ _ _ _ _ hExt]
  have hm1 : matchKeyAt (s "node_x")
      ('\n' :: ((s "node_x: " ++ intStr x) ++ '\n' :: (s "node_y: " ++ intStr y))) = none := rfl
  rw [findKeyAux_skip_nl hm1]
  have hsh2 : (s "node_x: " ++ intStr x) ++ '\n' :: (s "node_y: " ++ intStr y)
      = 'n' :: ((s "ode_x: " ++ intStr x) ++ '\n' :: (s "node_y: " ++ intStr y)) := rfl
  rw [hsh2, findKeyAux]
  simp only [if_true]
  have hmm : matchKeyAt (s "node_x")
      ('n' :: ((s "ode_x: " ++ intStr x) ++ '\n' :: (s "node_y: " ++ intStr y)))
      = some ((s "node_x: " ++ intStr x).length) := by
    have hsh3 : ('n' :: ((s "ode_x: " ++ intStr x) ++ '\n' :: (s "node_y: " ++ intStr y)) : List Char)
        = s "node_x" ++ ':' :: ' ' :: (intStr x ++ '\n' :: (s "node_y: " ++ intStr y)) := rfl
    rw [hsh3, matchKeyAt_canonical_nl _ _ _ (intStr_no_term x)]
    have h6 : (s "node_x").length = 6 := rfl
    have h8 : (s "node_x: ").length = 8 := rfl
    simp only [Option.some.injEq, List.length_append, h6, h8]
  rw [hmm]
  simp

theorem findKey_fm2_ky (f : List Char) (x y : Int)
    (hy : findKey (s "node_y") f = none) :
    findKey (s "node_y")
        (f ++ '\n' :: ((s "node_x: " ++ intStr x) ++ '\n' :: (s "node_y: " ++ intStr y)))
      = some (f.length + 1 + (s "node_x: " ++ intStr x).length + 1,
          f.length + 1 + (s "node_x: " ++ intStr x).length + 1
            + (s "node_y: " ++ intStr y).length) := by
  rw [findKey]
  have hExt : findKeyAuxExt (s "node_y")
      ('\n' :: ((s "node_x: " ++ intStr x) ++ '\n' :: (s "node_y: " ++ intStr y))) f 0 true
      = none := by
    have hsh : '\n' :: ((s "node_x: " ++ intStr x) ++ '\n' :: (s "node_y: " ++ intStr y))
        = '\n' :: 'n' :: ((s "ode_x: " ++ intStr x) ++ '\n' :: (s "node_y: " ++ intStr y)) := rfl
    rw [hsh]
    exact ext_of_aux_none _ _ (by decide) (by decide) (by decide) f 0 true hy
  rw [findKeyAux_append_none _ _ _ _ _ hExt]
  have hm1 : matchKeyAt (s "node_y")
      ('\n' :: ((s "node_x: " ++ intStr x) ++ '\n' :: (s "node_y: " ++ intStr y))) = none := rfl
  rw [findKeyAux_skip_nl hm1]
  have hsh2 : (s "node_x: " ++ intStr x) ++ '\n' :: (s "node_y: " ++ intStr y)
      = 'n' :: ((s "ode_x: " ++ intStr x) ++ '\n' :: (s "node_y: " ++ intStr y)) := rfl
  rw [hsh2, findKeyAux]
  simp only [if_true]
  have hm2 : matchKeyAt (s "node_y")
      ('n' :: ((s "ode_x: " ++ intStr x) ++ '\n' :: (s "node_y: " ++ intStr y))) = none := rfl
  rw [hm2]
  have ht : isTerm 'n' = false := rfl
  rw [ht]
  rw [scan_skip_noterm _ _ _ (noterm_ode_x x)]
  have hm3 : matchKeyAt (s "node_y") ('\n' :: (s "node_y: " ++ intStr y)) = none := rfl
  rw [findKeyAux_skip_nl hm3]
  have hshY : s "node_y: " ++ intStr y = 'n' :: (s "ode_y: " ++ intStr y) := rfl
  rw [hshY, findKeyAux]
  simp only [if_true]
  have hmm : matchKeyAt (s "node_y") ('n' :: (s "ode_y: " ++ intStr y))
      = some ((s "node_y: " ++ intStr y).length) := by
    have hsh3 : ('n' :: (s "ode_y: " ++ intStr y) : List Char)
        = s "node_y" ++ ':' :: ' ' :: intStr y := rfl
    rw [hsh3, matchKeyAt_canonical_end _ _ (intStr_no_term y)]
    have h6 : (s "node_y").length = 6 := rfl
    have h8 : (s "node_y: ").length = 8 := rfl
    simp only [Option.some.injEq, List.length_append, h6, h8]
  rw [hmm]
  have h7 : (s "ode_x: ").length = 7 := rfl
  have h8 : (s "node_x: ").length = 8 := rfl
  have h7y : (s "ode_y: ").length = 7 := rfl
  have h8y : (s "node_y: ").length = 8 := rfl
  simp only [Option.some.injEq, Prod.mk.injEq, List.length_append, List.length_cons,
    h7, h8, h7y, h8y]
  omega

theorem findKey_fm1e (f g : List Char)
    (he : findKey (s "edges") f = none) (hg : ∀ c ∈ g, isTerm c = false) :
    findKey (s "edges") (f ++ '\n' :: (s "edges: [\"" ++ g ++ s "\"]"))
      = some (f.length + 1, f.length + 1 + (s "edges: [\"" ++ g ++ s "\"]").length) := by
  rw [findKey]
  have hExt : findKeyAuxExt (s "edges")
      ('\n' :: (s "edges: [\"" ++ g ++ s "\"]")) f 0 true = none := by
    have hsh : '\n' :: (s "edges: [\"" ++ g ++ s "\"]")
        = '\n' :: 'e' :: ((s "dges: [\"" ++ g) ++ s "\"]") := rfl
    rw [hsh]
    exact ext_of_aux_none _ _ (by decide) (by decide) (by decide) f 0 true he
  rw [findKeyAux_append_none _ _ _ _ _ hExt]
  have hm1 : matchKeyAt (s "edges") ('\n' :: (s "edges: [\"" ++ g ++ s "\"]")) = none := rfl
  rw [findKeyAux_skip_nl hm1]
  have hsh2 : s "edges: [\"" ++ g ++ s "\"]"
      = 'e' :: ((s "dges: [\"" ++ g) ++ s "\"]") := rfl
  rw [hsh2, findKeyAux]
  simp only [if_true]
  have hv : ∀ c ∈ ('[' :: '"' :: (g ++ '"' :: ']' :: ([] : List Char))), isTerm c = false := by
    intro c hc
    simp only [List.mem_cons, List.mem_append] at hc
    rcases hc with rfl | rfl | hcg | rfl | rfl | hfalse
    · rfl
    · rfl
    · exact hg c hcg
    · rfl
    · rfl
    · exact absurd hfalse (List.not_mem_nil c)
  have hmm : matchKeyAt (s "edges") ('e' :: ((s "dges: [\"" ++ g) ++ s "\"]"))
      = some ((s "edges: [\"" ++ g ++ s "\"]").length) := by
    have hsh3 : ('e' :: ((s "dges: [\"" ++ g) ++ s "\"]") : List Char)
        = s "edges" ++ ':' :: ' ' :: ('[' :: '"' :: (g ++ '"' :: ']' :: [])) := rfl
    rw [hsh3, matchKeyAt_canonical_end _ _ hv]
    have h5 : (s "edges").length = 5 := rfl
    have h9 : (s "edges: [\"").length = 9 := rfl
    have h2 : (s "\"]").length = 2 := rfl
    simp only [Option.some.injEq, List.length_append, List.length_cons, List.length_nil,
      h5, h9, h2]
    omega
  rw [hmm]
  have h9 : (s "edges: [\"").length = 9 := rfl
  have h8d : (s "dges: [\"").length = 8 := rfl
  have h2 : (s "\"]").length = 2 := rfl
  simp only [Option.some.injEq, Prod.mk.injEq, List.length_append, List.length_cons,
    h9, h8d, h2]
  omega

theorem patchKey_found (k v fm : List Char) (p e : Nat)
    (h : findKey k fm = some (p, e)) :
    patchKey k v fm = fm.take p ++ (k ++ s ": " ++ v) ++ fm.drop e := by
  rw [patchKey, h]

theorem patchKey_absent (k v fm : List Char) (h : findKey k fm = none) :
    patchKey k v fm = fm ++ '\n' :: (k ++ s ": " ++ v) := by
  rw [patchKey, h]

theorem patch_fm2_x (f : List Char) (x y : Int) (hx : findKey (s "node_x") f = none) :
    patchKey (s "node_x") (intStr x)
        (f ++ '\n' :: ((s "node_x: " ++ intStr x) ++ '\n' :: (s "node_y: " ++ intStr y)))
      = f ++ '\n' :: ((s "node_x: " ++ intStr x) ++ '\n' :: (s "node_y: " ++ intStr y)) := by
  rw [patchKey_found _ _ _ _ _ (findKey_fm2_kx f x y hx)]
  have htake : (f ++ '\n' :: ((s "node_x: " ++ intStr x) ++ '\n' :: (s "node_y: " ++ intStr y))).take
      (f.length + 1) = f ++ ['\n'] := by
    rw [List.take_append 1]
    rfl
  have harith : f.length + 1 + (s "node_x: " ++ intStr x).length
      = f.length + ((s "node_x: " ++ intStr x).length + 1) := by omega
  have hdrop : (f ++ '\n' :: ((s "node_x: " ++ intStr x) ++ '\n' :: (s "node_y: " ++ intStr y))).drop
      (f.length + ((s "node_x: " ++ intStr x).length + 1))
      = '\n' :: (s "node_y: " ++ intStr y) := by
    rw [List.drop_append, List.drop_succ_cons, List.drop_left]
  rw [htake, harith, hdrop]
  have hrepl : s "node_x" ++ s ": " ++ intStr x = s "node_x: " ++ intStr x := rfl
  rw [hrepl]
  simp [List.append_assoc]

theorem patch_fm2_y (f : List Char) (x y : Int) (hy : findKey (s "node_y") f = none) :
    patchKey (s "node_y") (intStr y)
        (f ++ '\n' :: ((s "node_x: " ++ intStr x) ++ '\n' :: (s "node_y: " ++ intStr y)))
      = f ++ '\n' :: ((s "node_x: " ++ intStr x) ++ '\n' :: (s "node_y: " ++ intStr y)) := by
  rw [patchKey_found _ _ _ _ _ (findKey_fm2_ky f x y hy)]
  have harith1 : f.length + 1 + (s "node_x: " ++ intStr x).length + 1
      = f.length + ((s "node_x: " ++ intStr x).length + 1 + 1) := by omega
  have htake : (f ++ '\n' :: ((s "node_x: " ++ intStr x) ++ '\n' :: (s "node_y: " ++ intStr y))).take
      (f.length + ((s "node_x: " ++ intStr x).length + 1 + 1))
      = f ++ '\n' :: ((s "node_x: " ++ intStr x) ++ ['\n']) := by
    rw [List.take_append]
    have : (s "node_x: " ++ intStr x).length + 1 + 1
        = ((s "node_x: " ++ intStr x).length + 1) + 1 := by omega
    rw [this, List.take_succ_cons, List.take_append 1]
    rfl
  have harith2 : f.length + ((s "node_x: " ++ intStr x).length + 1 + 1)
        + (s "node_y: " ++ intStr y).length
      = f.length + ((s "node_x: " ++ intStr x).length + 1 + 1
        + (s "node_y: " ++ intStr y).length) := by omega
  have hdrop : (f ++ '\n' :: ((s "node_x: " ++ intStr x) ++ '\n' :: (s "node_y: " ++ intStr y))).drop
      (f.length + ((s "node_x: " ++ intStr x).length + 1 + 1 + (s "node_y: " ++ intStr y).length))
      = [] := by
    rw [List.drop_append]
    apply List.drop_eq_nil_of_le
    simp [List.length_cons, List.length_append]
    omega
  rw [harith1, htake, harith2, hdrop]
  have hrepl : s "node_y" ++ s ": " ++ intStr y = s "node_y: " ++ intStr y := rfl
  rw [hrepl]
  simp [List.append_assoc]

theorem saveET_some_eq {t fm rest : List Char} {es : List (List Char)}
    (h : frontmatterMatch t = some (fm, rest)) :
    saveEdgesText t es
      = s "---\n" ++
          (if es.isEmpty then
            match findKey (s "edges") fm with
            | some (p, e) => fm.take p ++ fm.drop e
            | none => fm
          else
            match findKey (s "edges") fm with
            | some (p, e) => fm.take p ++ edgesYaml es ++ fm.drop e
            | none => fm ++ '\n' :: edgesYaml es) ++ s "\n---\n" ++ rest := by
  unfold saveEdgesText
  rw [h]

theorem saveET_append_case {t fm rest : List Char} (g : List Char)
    (h : frontmatterMatch t = some (fm, rest))
    (hfk : findKey (s "edges") fm = none) :
    saveEdgesText t [g]
      = s "---\n" ++ (fm ++ '\n' :: edgesYaml [g]) ++ s "\n---\n" ++ rest := by
  rw [saveET_some_eq h, hfk]
  rfl

theorem saveET_replace_case {t fm rest : List Char} (es : List (List Char)) (p e : Nat)
    (h : frontmatterMatch t = some (fm, rest)) (hne : es.isEmpty = false)
    (hfk : findKey (s "edges") fm = some (p, e)) :
    saveEdgesText t es
      = s "---\n" ++ (fm.take p ++ edgesYaml es ++ fm.drop e) ++ s "\n---\n" ++ rest := by
  rw [saveET_some_eq h, hne, hfk]
  rfl

theorem patch_fm1e (f g : List Char) :
    (f ++ '\n' :: (s "edges: [\"" ++ g ++ s "\"]")).take (f.length + 1)
      ++ edgesYaml [g]
      ++ (f ++ '\n' :: (s "edges: [\"" ++ g ++ s "\"]")).drop
          (f.length + 1 + (s "edges: [\"" ++ g ++ s "\"]").length)
      = f ++ '\n' :: (s "edges: [\"" ++ g ++ s "\"]") := by
  have htake : (f ++ '\n' :: (s "edges: [\"" ++ g ++ s "\"]")).take (f.length + 1)
      = f ++ ['\n'] := by
    rw [List.take_append 1]
    rfl
  have harith : f.length + 1 + (s "edges: [\"" ++ g ++ s "\"]").length
      = f.length + ((s "edges: [\"" ++ g ++ s "\"]").length + 1) := by omega
  have hdrop : (f ++ '\n' :: (s "edges: [\"" ++ g ++ s "\"]")).drop
      (f.length + ((s "edges: [\"" ++ g ++ s "\"]").length + 1)) = [] := by
    rw [List.drop_append, List.drop_succ_cons]
    exact List.drop_length _
  rw [htake, harith, hdrop]
  have hyaml : edgesYaml [g] = s "edges: [\"" ++ g ++ s "\"]" := rfl
  rw [hyaml]
  simp [List.append_assoc]

theorem no_nl_replX (x : Int) : ∀ c ∈ s "node_x: " ++ intStr x, c ≠ '\n' := by
  intro c hc
  rcases List.mem_append.mp hc with h | h
  · exact (by decide : ∀ c ∈ s "node_x: ", c ≠ '\n') c h
  · exact no_nl_of_no_term (intStr_no_term x) c h

theorem no_nl_replY (y : Int) : ∀ c ∈ s "node_y: " ++ intStr y, c ≠ '\n' := by
  intro c hc
  rcases List.mem_append.mp hc with h | h
  · exact (by decide : ∀ c ∈ s "node_y: ", c ≠ '\n') c h
  · exact no_nl_of_no_term (intStr_no_term y) c h

theorem no_nl_yaml (g : List Char) (hg : ∀ c ∈ g, isTerm c = false) :
    ∀ c ∈ s "edges: [\"" ++ g ++ s "\"]", c ≠ '\n' := by
  intro c hc
  rcases List.mem_append.mp hc with h | h
  · rcases List.mem_append.mp h with h2 | h2
    · exact (by decide : ∀ c ∈ s "edges: [\"", c ≠ '\n') c h2
    · exact no_nl_of_no_term hg c h2
  · exact (by decide : ∀ c ∈ s "\"]", c ≠ '\n') c h

theorem noNlDashB_posB (x y : Int) :
    noNlDashB ('\n' :: ((s "node_x: " ++ intStr x) ++ '\n' :: (s "node_y: " ++ intStr y)))
      = true := by
  have hRY : noNlDashB ('\n' :: (s "node_y: " ++ intStr y)) = true := by
    have hsh : s "node_y: " ++ intStr y = 'n' :: (s "ode_y: " ++ intStr y) := rfl
    rw [hsh]
    refine noNlDashB_cons_nl (by decide) ?_
    rw [← hsh]
    exact noNlDashB_of_no_nl _ (no_nl_replY y)
  have hInner : noNlDashB ((s "node_x: " ++ intStr x) ++ '\n' :: (s "node_y: " ++ intStr y))
      = true := by
    refine noNlDashB_append (noNlDashB_of_no_nl _ (no_nl_replX x)) hRY ?_
    intro hh
    exact absurd hh (by decide)
  have hsh2 : (s "node_x: " ++ intStr x) ++ '\n' :: (s "node_y: " ++ intStr y)
      = 'n' :: ((s "ode_x: " ++ intStr x) ++ '\n' :: (s "node_y: " ++ intStr y)) := rfl
  rw [hsh2] at hInner ⊢
  exact noNlDashB_cons_nl (by decide) hInner

theorem noNlDashB_edgeB (g : List Char) (hg : ∀ c ∈ g, isTerm c = false) :
    noNlDashB ('\n' :: (s "edges: [\"" ++ g ++ s "\"]")) = true := by
  have hInner : noNlDashB (s "edges: [\"" ++ g ++ s "\"]") = true :=
    noNlDashB_of_no_nl _ (no_nl_yaml g hg)
  have hsh : s "edges: [\"" ++ g ++ s "\"]"
      = 'e' :: ((s "dges: [\"" ++ g) ++ s "\"]") := rfl
  rw [hsh] at hInner ⊢
  exact noNlDashB_cons_nl (by decide) hInner

/-- Claim C2 (amended): on a document consisting of a normalized
attribute block `---\n body \n---\n rest` whose body is nonempty,
starts with a non-whitespace character, has no `-` directly after a
newline, declares none of the patched keys, and contains no `$` (the
replacement strings are modelled literally, which matches JavaScript
only in the absence of `$` patterns), and whose trailing content does
not begin with whitespace containing a newline: the position write and
the single-target edge write (target free of line terminators and `$`)
are idempotent. -/
theorem C2_idempotent_normalized
    (c₀ : Char) (f' r g : List Char) (x y : Int)
    (hc : isWs c₀ = false)
    (hf : noNlDashB (c₀ :: f') = true)
    (hr : restOk r = true)
    (hx : findKey (s "node_x") (c₀ :: f') = none)
    (hy : findKey (s "node_y") (c₀ :: f') = none)
    (he : findKey (s "edges") (c₀ :: f') = none)
    (hg : ∀ c ∈ g, isTerm c = false)
    (hdol1 : '$' ∉ c₀ :: f') (hdol2 : '$' ∉ g) :
    saveNodePositionText
        (saveNodePositionText (s "---\n" ++ (c₀ :: f') ++ s "\n---\n" ++ r) x y) x y
      = saveNodePositionText (s "---\n" ++ (c₀ :: f') ++ s "\n---\n" ++ r) x y ∧
    saveEdgesText (saveEdgesText (s "---\n" ++ (c₀ :: f') ++ s "\n---\n" ++ r) [g]) [g]
      = saveEdgesText (s "---\n" ++ (c₀ :: f') ++ s "\n---\n" ++ r) [g] := by
  have h1 := frontmatterMatch_normalized c₀ f' r hc hf hr
  constructor
  · have hw1 : saveNodePositionText (s "---\n" ++ (c₀ :: f') ++ s "\n---\n" ++ r) x y
        = s "---\n" ++ ((c₀ :: f') ++ '\n' ::
            ((s "node_x: " ++ intStr x) ++ '\n' :: (s "node_y: " ++ intStr y)))
          ++ s "\n---\n" ++ r := by
      rw [saveNPT_some h1, patchKey_absent _ _ _ hx]
      have hrepl : s "node_x" ++ s ": " ++ intStr x = s "node_x: " ++ intStr x := rfl
      rw [hrepl, patchKey_absent _ _ _ (findKey_fm1_ky (c₀ :: f') x hy)]
      have hrepl2 : s "node_y" ++ s ": " ++ intStr y = s "node_y: " ++ intStr y := rfl
      rw [hrepl2]
      simp [List.append_assoc]
    have hfm2 : noNlDashB ((c₀ :: f') ++ '\n' ::
        ((s "node_x: " ++ intStr x) ++ '\n' :: (s "node_y: " ++ intStr y))) = true := by
      refine noNlDashB_append hf (noNlDashB_posB x y) ?_
      intro hh
      exact absurd hh (by decide)
    have h2 : frontmatterMatch (s "---\n" ++ ((c₀ :: f') ++ '\n' ::
          ((s "node_x: " ++ intStr x) ++ '\n' :: (s "node_y: " ++ intStr y)))
          ++ s "\n---\n" ++ r)
        = some ((c₀ :: f') ++ '\n' ::
            ((s "node_x: " ++ intStr x) ++ '\n' :: (s "node_y: " ++ intStr y)), r) :=
      frontmatterMatch_normalized c₀
        (f' ++ '\n' :: ((s "node_x: " ++ intStr x) ++ '\n' :: (s "node_y: " ++ intStr y)))
        r hc hfm2 hr
    rw [hw1, saveNPT_some h2, patch_fm2_x (c₀ :: f') x y hx,
      patch_fm2_y (c₀ :: f') x y hy]
  · have hw1 : saveEdgesText (s "---\n" ++ (c₀ :: f') ++ s "\n---\n" ++ r) [g]
        = s "---\n" ++ ((c₀ :: f') ++ '\n' :: (s "edges: [\"" ++ g ++ s "\"]"))
          ++ s "\n---\n" ++ r := by
      rw [saveET_append_case g h1 he]
      have hyaml : edgesYaml [g] = s "edges: [\"" ++ g ++ s "\"]" := rfl
      rw [hyaml]
    have hfm1e : noNlDashB ((c₀ :: f') ++ '\n' :: (s "edges: [\"" ++ g ++ s "\"]"))
        = true := by
      refine noNlDashB_append hf (noNlDashB_edgeB g hg) ?_
      intro hh
      exact absurd hh (by decide)
    have h2 : frontmatterMatch (s "---\n" ++ ((c₀ :: f') ++ '\n' ::
          (s "edges: [\"" ++ g ++ s "\"]")) ++ s "\n---\n" ++ r)
        = some ((c₀ :: f') ++ '\n' :: (s "edges: [\"" ++ g ++ s "\"]"), r) :=
      frontmatterMatch_normalized c₀ (f' ++ '\n' :: (s "edges: [\"" ++ g ++ s "\"]"))
        r hc hfm1e hr
    rw [hw1, saveET_replace_case [g] _ _ h2 rfl (findKey_fm1e (c₀ :: f') g he hg),
      patch_fm1e (c₀ :: f') g]

/-- Witness for the amended C2 at a concrete document. -/
theorem C2_idempotent_normalized_witness :
    saveNodePositionText (saveNodePositionText (s "---\ntitle: hi\n---\nbody") 5 7) 5 7
      = saveNodePositionText (s "---\ntitle: hi\n---\nbody") 5 7 ∧
    saveEdgesText (saveEdgesText (s "---\ntitle: hi\n---\nbody") [s "A.md"]) [s "A.md"]
      = saveEdgesText (s "---\ntitle: hi\n---\nbody") [s "A.md"] :=
  C2_idempotent_normalized 't' (s "itle: hi") (s "body") (s "A.md") 5 7
    (by decide) (by decide) (by decide) (by decide) (by decide) (by decide)
    (by decide) (by decide) (by decide)
